import Mathlib

/-!
Verification of the amortization engine of
`src/Week3_assesment/streamlit-loan-calculator/app.py`.

The engine is embedded shallowly over `ℚ` (the Python code computes with
floats; all claims under scrutiny are stated in exact real arithmetic, so the
embedding uses exact rationals).  `round(x, 2)` is modelled as rounding
`100 * x` to the nearest integer and dividing by `100`.  Calendar dates are
modelled as integer day numbers: `datetime.date` values form an affine space
over days and the code only ever adds `timedelta(days = k)`, so a date is an
`ℤ` and `start_date + timedelta(days = k)` is `start_date + k`.

The `while bal > 1e-6 and period < 1000 * n` loop is translated into the
fuel-recursive `amortLoop` with fuel `1000 * n - period`; the loop counter
`period` increases by exactly one per iteration, so `period < 1000 * n`
holds at entry of an iteration iff the remaining fuel is positive.
-/

-- Rational arithmetic and scientific-notation literals (1e-6, 1e-9) must be
-- unfoldable for evaluation of concrete schedules inside proofs.
unseal Rat.add Rat.sub Rat.mul Rat.inv Rat.ofScientific

/-- Rounding to two decimal places, the model of Python `round(x, 2)`:
round `100 * x` to the nearest integer (ties away from the midpoint are
irrelevant for the claims; ties round up here) and divide by `100`.
`Rat.floor` and `mkRat` are used so that the function evaluates inside the
kernel; `round2_eq` below restates it through Mathlib `round`. -/
def round2 (x : ℚ) : ℚ := mkRat (x * 100 + mkRat 1 2).floor 100

/-- Payment frequency selector, Python `compounding` ∈ {"Monthly", "Quarterly", "Yearly"}. -/
inductive Freq : Type
  | Monthly : Freq
  | Quarterly : Freq
  | Yearly : Freq
deriving DecidableEq, Repr

/-- Python `periods_per_year`: `{"Monthly": 12, "Quarterly": 4, "Yearly": 1}[mode]`. -/
def periods_per_year (mode : Freq) : ℕ :=
  match mode with
  | .Monthly => 12
  | .Quarterly => 4
  | .Yearly => 1

/-- Python `period_delta` (inside `amortization_schedule`):
`{"Monthly": 30, "Quarterly": 91, "Yearly": 365}[freq]`, in days. -/
def period_delta (freq : Freq) : ℤ :=
  match freq with
  | .Monthly => 30
  | .Quarterly => 91
  | .Yearly => 365

/-- Python `pmt(rate_per_period, n_periods, principal)`: the standard
amortizing loan payment. -/
def pmt (rate_per_period : ℚ) (n_periods : ℕ) (principal : ℚ) : ℚ :=
  if n_periods = 0 then 0
  else if |rate_per_period| < 1e-9 then principal / n_periods
  else
    principal * rate_per_period * (1 + rate_per_period) ^ n_periods /
      ((1 + rate_per_period) ^ n_periods - 1)

/-- One row of the schedule, Python's per-period record.  Field names map to
the DataFrame columns: `period` = "Period", `date` = "Date", `basePayment` =
"Payment (base)", `extraPayment` = "Extra Payment", `totalExclFee` =
"Payment (total excl. fees)", `fee` = "Monthly Fee", `totalInclFee` =
"Payment (grand total)", `interest` = "Interest", `principalPaid` =
"Principal", `balance` = "Balance". -/
structure Row : Type where
  period : ℕ
  date : ℤ
  basePayment : ℚ
  extraPayment : ℚ
  totalExclFee : ℚ
  fee : ℚ
  totalInclFee : ℚ
  interest : ℚ
  principalPaid : ℚ
  balance : ℚ
deriving DecidableEq, Repr

/-- The input record: the seven parameters of Python `amortization_schedule`. -/
structure LoanTerms : Type where
  principal : ℚ
  apr : ℚ
  years : ℕ
  freq : Freq
  startDate : ℤ
  monthlyFee : ℚ
  extraPerPeriod : ℚ
deriving DecidableEq, Repr

/-- The principal component selected for the period: Python computes
`principal_component = (base_payment - interest) + extra_per_period` and
clamps it to `bal` when it exceeds `bal`. -/
def pcSel (r base extra bal : ℚ) : ℚ :=
  if bal < base - bal * r + extra then bal else base - bal * r + extra

/-- The period's total payment excluding fees: `base_payment +
extra_per_period`, recomputed as `interest + principal_component` when the
clamp of `pcSel` fires (Python's final-period true-up). -/
def tpSel (r base extra bal : ℚ) : ℚ :=
  if bal < base - bal * r + extra then bal * r + bal else base + extra

/-- The body of Python's `while bal > 1e-6 and period < 1000 * n` loop,
as fuel recursion (fuel = `1000 * n - period`).  Returns the emitted rows
together with the final values of the mutable `bal` and `period`. -/
def amortLoop (r base fee extra : ℚ) (δ : ℤ) :
    ℕ → ℚ → ℤ → ℕ → List Row × ℚ × ℕ
  | 0, bal, _, p => ([], bal, p)
  | fuel + 1, bal, d, p =>
    if 1e-6 < bal then
      let rest := amortLoop r base fee extra δ fuel (bal - pcSel r base extra bal) (d + δ) (p + 1)
      ({ period := p + 1
         date := d
         basePayment := round2 base
         extraPayment := round2 extra
         totalExclFee := round2 (tpSel r base extra bal)
         fee := round2 fee
         totalInclFee := round2 (tpSel r base extra bal + fee)
         interest := round2 (bal * r)
         principalPaid := round2 (pcSel r base extra bal)
         balance := round2 (bal - pcSel r base extra bal) } :: rest.1, rest.2)
    else ([], bal, p)

/-- Python local `m = periods_per_year(freq)`. -/
def ppy (t : LoanTerms) : ℕ := periods_per_year t.freq

/-- Python local `n = years * m`. -/
def nper (t : LoanTerms) : ℕ := t.years * ppy t

/-- Python local `r = (apr / 100.0) / m`. -/
def rate (t : LoanTerms) : ℚ := t.apr / 100 / (ppy t : ℚ)

/-- The loop of `amortization_schedule` run from its initial state
`bal = principal`, `current_date = start_date`, `period = 0`. -/
def scheduleRun (t : LoanTerms) : List Row × ℚ × ℕ :=
  amortLoop (rate t) (pmt (rate t) (nper t) t.principal) t.monthlyFee
    t.extraPerPeriod (period_delta t.freq) (1000 * nper t) t.principal t.startDate 0

/-- Python `amortization_schedule`: returns the rows (the DataFrame), the
base payment rounded to two decimals, and the final `period` counter. -/
def amortization_schedule (t : LoanTerms) : List Row × ℚ × ℕ :=
  ((scheduleRun t).1, round2 (pmt (rate t) (nper t) t.principal), (scheduleRun t).2.2)

/-- Variant generator following the spec reading under claim C10 in which the
rows would be produced from the ROUNDED base payment; `amortization_schedule`
itself feeds the unrounded `pmt` value to the loop.  Used only to exhibit
that the two disagree. -/
def schedule_from_rounded_base (t : LoanTerms) : List Row × ℚ × ℕ :=
  ((amortLoop (rate t) (round2 (pmt (rate t) (nper t) t.principal)) t.monthlyFee
      t.extraPerPeriod (period_delta t.freq) (1000 * nper t) t.principal t.startDate 0).1,
   round2 (pmt (rate t) (nper t) t.principal),
   (amortLoop (rate t) (round2 (pmt (rate t) (nper t) t.principal)) t.monthlyFee
      t.extraPerPeriod (period_delta t.freq) (1000 * nper t) t.principal t.startDate 0).2.2)

/-- The fee-independent projection of a row: every field except `fee` and
`totalInclFee` (used for claim C7). -/
def Row.core (row : Row) : ℕ × ℤ × ℚ × ℚ × ℚ × ℚ × ℚ × ℚ :=
  (row.period, row.date, row.basePayment, row.extraPayment, row.totalExclFee,
   row.interest, row.principalPaid, row.balance)

/-! ### Basic facts about the two-decimal rounding -/

/-- Batteries `Rat.floor` is Mathlib's `⌊·⌋` on `ℚ`. -/
theorem ratFloor_eq_intFloor (q : ℚ) : q.floor = ⌊q⌋ := by
  rw [Rat.floor_def, Rat.floor_def']

/-- The executable `round2` agrees with rounding `100 * x` to the nearest
integer (Mathlib `round`) followed by division by `100`. -/
theorem round2_eq (x : ℚ) : round2 x = ((round (x * 100) : ℤ) : ℚ) / 100 := by
  have hhalf : (mkRat 1 2 : ℚ) = 1 / 2 := by
    rw [Rat.mkRat_eq_div]
    norm_num
  rw [round2, Rat.mkRat_eq_div, ratFloor_eq_intFloor, round_eq, hhalf]
  norm_num

/-- Two-decimal rounding moves a value by at most half a cent. -/
theorem abs_round2_sub (x : ℚ) : |round2 x - x| ≤ 1 / 200 := by
  rw [round2_eq]
  have h := abs_le.mp (abs_sub_round (x * 100))
  rw [abs_le]
  constructor <;> [skip; skip] <;>
    · obtain ⟨h1, h2⟩ := h
      linarith

/-- Two-decimal rounding is monotone. -/
theorem round2_mono {x y : ℚ} (h : x ≤ y) : round2 x ≤ round2 y := by
  rw [round2_eq, round2_eq]
  have : round (x * 100) ≤ round (y * 100) := by
    rw [round_eq, round_eq]
    exact Int.floor_mono (by linarith)
  have : ((round (x * 100) : ℤ) : ℚ) ≤ ((round (y * 100) : ℤ) : ℚ) := by exact_mod_cast this
  linarith

theorem round2_zero : round2 0 = 0 := by decide

/-- A balance in `[0, 1e-6]` rounds to exactly `0.00`. -/
theorem round2_eq_zero_of_small {x : ℚ} (h0 : 0 ≤ x) (h1 : x ≤ 1e-6) : round2 x = 0 := by
  have h1' : x ≤ 1 / 1000000 := by
    calc x ≤ 1e-6 := h1
    _ = 1 / 1000000 := by norm_num
  rw [round2_eq, round_eq]
  have : ⌊x * 100 + 1 / 2⌋ = 0 := by
    rw [Int.floor_eq_zero_iff]
    constructor
    · positivity
    · linarith
  rw [this]
  norm_num

/-! ### Basic lemmas about the loop -/

/-- When the loop guard fails (`bal ≤ 1e-6`), no iteration runs: no rows,
and `bal` and `period` are returned unchanged. -/
theorem amortLoop_nil (r base fee extra : ℚ) (δ : ℤ) (fuel : ℕ) (bal : ℚ) (d : ℤ) (p : ℕ)
    (h : ¬ 1e-6 < bal) :
    amortLoop r base fee extra δ fuel bal d p = ([], bal, p) := by
  cases fuel with
  | zero => rfl
  | succ fuel => simp [amortLoop, h]

/-- One unfolding of the loop when the guard holds and fuel remains. -/
theorem amortLoop_succ (r base fee extra : ℚ) (δ : ℤ) (fuel : ℕ) (bal : ℚ) (d : ℤ) (p : ℕ)
    (h : 1e-6 < bal) :
    amortLoop r base fee extra δ (fuel + 1) bal d p =
      ({ period := p + 1
         date := d
         basePayment := round2 base
         extraPayment := round2 extra
         totalExclFee := round2 (tpSel r base extra bal)
         fee := round2 fee
         totalInclFee := round2 (tpSel r base extra bal + fee)
         interest := round2 (bal * r)
         principalPaid := round2 (pcSel r base extra bal)
         balance := round2 (bal - pcSel r base extra bal) } ::
           (amortLoop r base fee extra δ fuel (bal - pcSel r base extra bal) (d + δ) (p + 1)).1,
       (amortLoop r base fee extra δ fuel (bal - pcSel r base extra bal) (d + δ) (p + 1)).2) := by
  simp [amortLoop, h]

/-- The loop emits at most `fuel` rows. -/
theorem amortLoop_length_le (r base fee extra : ℚ) (δ : ℤ) :
    ∀ (fuel : ℕ) (bal : ℚ) (d : ℤ) (p : ℕ),
      (amortLoop r base fee extra δ fuel bal d p).1.length ≤ fuel := by
  intro fuel
  induction fuel with
  | zero => intro bal d p; simp [amortLoop]
  | succ fuel ih =>
    intro bal d p
    by_cases h : 1e-6 < bal
    · rw [amortLoop_succ _ _ _ _ _ _ _ _ _ h]
      simpa using ih _ _ _
    · rw [amortLoop_nil _ _ _ _ _ _ _ _ _ h]
      simp

/-- If no rows are emitted, the loop state is returned unchanged. -/
theorem amortLoop_of_nil (r base fee extra : ℚ) (δ : ℤ) :
    ∀ (fuel : ℕ) (bal : ℚ) (d : ℤ) (p : ℕ),
      (amortLoop r base fee extra δ fuel bal d p).1 = [] →
      (amortLoop r base fee extra δ fuel bal d p).2 = (bal, p) := by
  intro fuel bal d p hnil
  cases fuel with
  | zero => rfl
  | succ fuel =>
    by_cases h : 1e-6 < bal
    · rw [amortLoop_succ _ _ _ _ _ _ _ _ _ h] at hnil
      simp at hnil
    · rw [amortLoop_nil _ _ _ _ _ _ _ _ _ h]

/-! ### Invariants of one loop step -/

/-- The selected principal component never exceeds the running balance:
either the clamp fires and returns `bal` itself, or the unclamped value was
already `≤ bal`.  Consequently the balance never becomes negative. -/
theorem pcSel_le_bal (r base extra bal : ℚ) : pcSel r base extra bal ≤ bal := by
  unfold pcSel
  split_ifs with hc
  · exact le_refl bal
  · exact not_lt.mp hc

/-- As long as one period's interest cannot exceed `base + extra`, the
selected principal component is non-negative. -/
theorem pcSel_nonneg (r base extra bal : ℚ) (hb : 0 ≤ bal)
    (h : bal * r ≤ base + extra) : 0 ≤ pcSel r base extra bal := by
  unfold pcSel
  split_ifs with hc
  · exact hb
  · linarith

/-- In both branches the period's quantities satisfy
`interest + principalComponent = totalPaymentExclFee` exactly (before any
rounding). -/
theorem tpSel_eq (r base extra bal : ℚ) :
    bal * r + pcSel r base extra bal = tpSel r base extra bal := by
  unfold pcSel tpSel
  split_ifs with hc
  · rfl
  · ring

/-- Under the step invariant (`0 ≤ bal` and `bal * r ≤ base + extra`, with
`r ≥ 0`), the rounded balances emitted by the loop form a non-increasing
chain below `round2 bal`. -/
theorem amortLoop_balance_chain (r base fee extra : ℚ) (δ : ℤ) (hr : 0 ≤ r) :
    ∀ (fuel : ℕ) (bal : ℚ) (d : ℤ) (p : ℕ), 0 ≤ bal → bal * r ≤ base + extra →
      List.Chain (fun a b => b ≤ a) (round2 bal)
        ((amortLoop r base fee extra δ fuel bal d p).1.map Row.balance) := by
  intro fuel
  induction fuel with
  | zero =>
    intro bal d p _ _
    simp [amortLoop]
  | succ fuel ih =>
    intro bal d p hb hinv
    by_cases hg : 1e-6 < bal
    · rw [amortLoop_succ _ _ _ _ _ _ _ _ _ hg]
      have hpc0 : 0 ≤ pcSel r base extra bal := pcSel_nonneg _ _ _ _ hb hinv
      have hble : bal - pcSel r base extra bal ≤ bal := by linarith
      have hb2 : 0 ≤ bal - pcSel r base extra bal := by
        have := pcSel_le_bal r base extra bal
        linarith
      refine List.chain_cons.mpr ⟨round2_mono hble, ?_⟩
      exact ih _ _ _ hb2 (le_trans (mul_le_mul_of_nonneg_right hble hr) hinv)
    · rw [amortLoop_nil _ _ _ _ _ _ _ _ _ hg]
      simp

/-- Under the step invariant the final balance of the loop stays in
`[0, bal]`. -/
theorem amortLoop_final_bounds (r base fee extra : ℚ) (δ : ℤ) (hr : 0 ≤ r) :
    ∀ (fuel : ℕ) (bal : ℚ) (d : ℤ) (p : ℕ), 0 ≤ bal → bal * r ≤ base + extra →
      0 ≤ (amortLoop r base fee extra δ fuel bal d p).2.1 ∧
        (amortLoop r base fee extra δ fuel bal d p).2.1 ≤ bal := by
  intro fuel
  induction fuel with
  | zero =>
    intro bal d p hb _
    exact ⟨hb, le_refl bal⟩
  | succ fuel ih =>
    intro bal d p hb hinv
    by_cases hg : 1e-6 < bal
    · rw [amortLoop_succ _ _ _ _ _ _ _ _ _ hg]
      have hpc0 : 0 ≤ pcSel r base extra bal := pcSel_nonneg _ _ _ _ hb hinv
      have hble : bal - pcSel r base extra bal ≤ bal := by linarith
      have hb2 : 0 ≤ bal - pcSel r base extra bal := by
        have := pcSel_le_bal r base extra bal
        linarith
      obtain ⟨h1, h2⟩ := ih (bal - pcSel r base extra bal) (d + δ) (p + 1) hb2
        (le_trans (mul_le_mul_of_nonneg_right hble hr) hinv)
      exact ⟨h1, le_trans h2 hble⟩
    · rw [amortLoop_nil _ _ _ _ _ _ _ _ _ hg]
      exact ⟨hb, le_refl bal⟩

/-- The last emitted row (if any) records the rounded final balance. -/
theorem amortLoop_getLast (r base fee extra : ℚ) (δ : ℤ) :
    ∀ (fuel : ℕ) (bal : ℚ) (d : ℤ) (p : ℕ) (row : Row),
      (amortLoop r base fee extra δ fuel bal d p).1.getLast? = some row →
      row.balance = round2 (amortLoop r base fee extra δ fuel bal d p).2.1 := by
  intro fuel
  induction fuel with
  | zero =>
    intro bal d p row hlast
    simp [amortLoop] at hlast
  | succ fuel ih =>
    intro bal d p row hlast
    by_cases hg : 1e-6 < bal
    · rw [amortLoop_succ _ _ _ _ _ _ _ _ _ hg] at hlast ⊢
      rcases hrest : (amortLoop r base fee extra δ fuel (bal - pcSel r base extra bal)
          (d + δ) (p + 1)).1 with _ | ⟨b, l⟩
      · have hfin := amortLoop_of_nil r base fee extra δ fuel
          (bal - pcSel r base extra bal) (d + δ) (p + 1) hrest
        rw [hrest] at hlast
        simp at hlast
        simp [hfin, ← hlast]
      · rw [hrest] at hlast
        rw [List.getLast?_cons_cons] at hlast
        have := ih (bal - pcSel r base extra bal) (d + δ) (p + 1) row
        rw [hrest] at this
        exact this hlast
    · rw [amortLoop_nil _ _ _ _ _ _ _ _ _ hg] at hlast
      simp at hlast

/-- Termination potential, positive-rate case.  Along every non-clamped step
the deficit `base + extra - bal * r` is multiplied by exactly `1 + r`; if the
deficit amplified through the available fuel covers `base + extra`, the loop
drives the balance into `[0, 1e-6]` before the fuel runs out. -/
theorem amortLoop_final_small_pos (r base fee extra : ℚ) (δ : ℤ) (hr : 0 < r) :
    ∀ (fuel : ℕ) (bal : ℚ) (d : ℤ) (p : ℕ), 0 ≤ bal → bal * r ≤ base + extra →
      base + extra ≤ (base + extra - bal * r) * (1 + r) ^ fuel →
      0 ≤ (amortLoop r base fee extra δ fuel bal d p).2.1 ∧
        (amortLoop r base fee extra δ fuel bal d p).2.1 ≤ 1e-6 := by
  intro fuel
  induction fuel with
  | zero =>
    intro bal d p hb hinv hpot
    rw [pow_zero, mul_one] at hpot
    have hbal0 : bal ≤ 0 := by nlinarith
    have : bal = 0 := le_antisymm hbal0 hb
    simp [amortLoop, this]
    norm_num
  | succ fuel ih =>
    intro bal d p hb hinv hpot
    by_cases hg : 1e-6 < bal
    · rw [amortLoop_succ _ _ _ _ _ _ _ _ _ hg]
      by_cases hc : bal < base - bal * r + extra
      · have hpc : pcSel r base extra bal = bal := by
          unfold pcSel
          rw [if_pos hc]
        rw [hpc, sub_self]
        rw [amortLoop_nil _ _ _ _ _ _ _ _ _ (by norm_num)]
        norm_num
      · have hpc : pcSel r base extra bal = base - bal * r + extra := by
          unfold pcSel
          rw [if_neg hc]
        rw [hpc]
        push_neg at hc
        have hb2 : 0 ≤ bal - (base - bal * r + extra) := by linarith
        have hble : bal - (base - bal * r + extra) ≤ bal := by nlinarith
        refine ih _ _ _ hb2 (le_trans (mul_le_mul_of_nonneg_right hble (le_of_lt hr)) hinv) ?_
        have key : base + extra - (bal - (base - bal * r + extra)) * r =
            (1 + r) * (base + extra - bal * r) := by ring
        calc base + extra ≤ (base + extra - bal * r) * (1 + r) ^ (fuel + 1) := hpot
          _ = (1 + r) * (base + extra - bal * r) * (1 + r) ^ fuel := by ring
          _ = (base + extra - (bal - (base - bal * r + extra)) * r) * (1 + r) ^ fuel := by
              rw [key]
    · rw [amortLoop_nil _ _ _ _ _ _ _ _ _ hg]
      exact ⟨hb, not_lt.mp hg⟩

/-- Termination potential, zero-rate case: each non-clamped step pays off
exactly `base + extra`, so `fuel * (base + extra) ≥ bal` suffices. -/
theorem amortLoop_final_small_zero (base fee extra : ℚ) (δ : ℤ) :
    ∀ (fuel : ℕ) (bal : ℚ) (d : ℤ) (p : ℕ), 0 ≤ bal →
      bal ≤ (fuel : ℚ) * (base + extra) →
      0 ≤ (amortLoop 0 base fee extra δ fuel bal d p).2.1 ∧
        (amortLoop 0 base fee extra δ fuel bal d p).2.1 ≤ 1e-6 := by
  intro fuel
  induction fuel with
  | zero =>
    intro bal d p hb hpot
    norm_num at hpot
    have : bal = 0 := le_antisymm hpot hb
    simp [amortLoop, this]
    norm_num
  | succ fuel ih =>
    intro bal d p hb hpot
    by_cases hg : 1e-6 < bal
    · rw [amortLoop_succ _ _ _ _ _ _ _ _ _ hg]
      by_cases hc : bal < base - bal * 0 + extra
      · have hpc : pcSel 0 base extra bal = bal := by
          unfold pcSel
          rw [if_pos hc]
        rw [hpc, sub_self]
        rw [amortLoop_nil _ _ _ _ _ _ _ _ _ (by norm_num)]
        norm_num
      · have hpc : pcSel 0 base extra bal = base - bal * 0 + extra := by
          unfold pcSel
          rw [if_neg hc]
        rw [hpc]
        push_neg at hc
        have hb2 : 0 ≤ bal - (base - bal * 0 + extra) := by linarith
        refine ih _ _ _ hb2 ?_
        push_cast at hpot ⊢
        linarith
    · rw [amortLoop_nil _ _ _ _ _ _ _ _ _ hg]
      exact ⟨hb, not_lt.mp hg⟩

/-- The rounded per-row principal figures sum to the total true principal
reduction `bal - finalBal`, up to half a cent per row. -/
theorem amortLoop_principal_sum (r base fee extra : ℚ) (δ : ℤ) :
    ∀ (fuel : ℕ) (bal : ℚ) (d : ℤ) (p : ℕ),
      |((amortLoop r base fee extra δ fuel bal d p).1.map Row.principalPaid).sum -
          (bal - (amortLoop r base fee extra δ fuel bal d p).2.1)| ≤
        ((amortLoop r base fee extra δ fuel bal d p).1.length : ℚ) * (1 / 200) := by
  intro fuel
  induction fuel with
  | zero =>
    intro bal d p
    simp [amortLoop]
  | succ fuel ih =>
    intro bal d p
    by_cases hg : 1e-6 < bal
    · rw [amortLoop_succ _ _ _ _ _ _ _ _ _ hg]
      have hrnd := abs_round2_sub (pcSel r base extra bal)
      have hrec := ih (bal - pcSel r base extra bal) (d + δ) (p + 1)
      simp only [List.map_cons, List.sum_cons, List.length_cons]
      push_cast
      set rest := amortLoop r base fee extra δ fuel (bal - pcSel r base extra bal) (d + δ) (p + 1)
      have hsplit :
          round2 (pcSel r base extra bal) + ((rest.1.map Row.principalPaid).sum) -
              (bal - rest.2.1) =
            (round2 (pcSel r base extra bal) - pcSel r base extra bal) +
              ((rest.1.map Row.principalPaid).sum - ((bal - pcSel r base extra bal) - rest.2.1)) := by
        ring
      rw [hsplit]
      calc |(round2 (pcSel r base extra bal) - pcSel r base extra bal) +
              ((rest.1.map Row.principalPaid).sum - ((bal - pcSel r base extra bal) - rest.2.1))|
          ≤ |round2 (pcSel r base extra bal) - pcSel r base extra bal| +
              |(rest.1.map Row.principalPaid).sum - ((bal - pcSel r base extra bal) - rest.2.1)| :=
            abs_add _ _
        _ ≤ 1 / 200 + (rest.1.length : ℚ) * (1 / 200) := by
            exact add_le_add hrnd hrec
        _ = ((rest.1.length : ℚ) + 1) * (1 / 200) := by ring
    · rw [amortLoop_nil _ _ _ _ _ _ _ _ _ hg]
      simp

/-- If `a + b = c` exactly, then after independent two-decimal rounding the
identity can drift, but by at most one cent: the three roundings move the
total by at most `3/200`, and the discrepancy is a whole number of cents. -/
theorem round2_add_sub (a b c : ℚ) (h : a + b = c) :
    |round2 a + round2 b - round2 c| ≤ 1 / 100 := by
  have ha := abs_round2_sub a
  have hb := abs_round2_sub b
  have hc := abs_round2_sub c
  have habc : round2 a + round2 b - round2 c =
      (round2 a - a) + (round2 b - b) - (round2 c - c) := by
    rw [← h]
    ring
  have h32 : |round2 a + round2 b - round2 c| ≤ 3 / 200 := by
    rw [habc]
    calc |(round2 a - a) + (round2 b - b) - (round2 c - c)|
        ≤ |(round2 a - a) + (round2 b - b)| + |round2 c - c| := abs_sub _ _
      _ ≤ |round2 a - a| + |round2 b - b| + |round2 c - c| := by
          have := abs_add (round2 a - a) (round2 b - b)
          linarith
      _ ≤ 3 / 200 := by linarith
  obtain ⟨z, hz⟩ : ∃ z : ℤ, round2 a + round2 b - round2 c = (z : ℚ) / 100 :=
    ⟨round (a * 100) + round (b * 100) - round (c * 100), by
      rw [round2_eq, round2_eq, round2_eq]
      push_cast
      ring⟩
  rw [hz] at h32 ⊢
  have habs : |(z : ℚ)| ≤ 3 / 2 := by
    rw [abs_div] at h32
    have : |(100 : ℚ)| = 100 := by norm_num
    rw [this] at h32
    linarith [(div_le_div_iff (by norm_num : (0:ℚ) < 100) (by norm_num : (0:ℚ) < 200)).mp h32]
  have hzint : |z| ≤ 1 := by
    by_contra hcon
    push_neg at hcon
    have h2 : (2 : ℤ) ≤ |z| := hcon
    have : (2 : ℚ) ≤ |(z : ℚ)| := by
      rw [← Int.cast_abs]
      exact_mod_cast h2
    linarith
  have : |(z : ℚ)| ≤ 1 := by
    rw [← Int.cast_abs]
    exact_mod_cast hzint
  rw [abs_div]
  have h100 : |(100 : ℚ)| = 100 := by norm_num
  rw [h100]
  linarith

/-- Every emitted row satisfies the rounded budget identity up to one cent. -/
theorem amortLoop_row_identity (r base fee extra : ℚ) (δ : ℤ) :
    ∀ (fuel : ℕ) (bal : ℚ) (d : ℤ) (p : ℕ) (row : Row),
      row ∈ (amortLoop r base fee extra δ fuel bal d p).1 →
      |row.interest + row.principalPaid - row.totalExclFee| ≤ 1 / 100 := by
  intro fuel
  induction fuel with
  | zero =>
    intro bal d p row hmem
    simp [amortLoop] at hmem
  | succ fuel ih =>
    intro bal d p row hmem
    by_cases hg : 1e-6 < bal
    · rw [amortLoop_succ _ _ _ _ _ _ _ _ _ hg] at hmem
      rcases List.mem_cons.mp hmem with hhead | htail
      · subst hhead
        exact round2_add_sub _ _ _ (tpSel_eq r base extra bal)
      · exact ih _ _ _ row htail
    · rw [amortLoop_nil _ _ _ _ _ _ _ _ _ hg] at hmem
      simp at hmem

/-- The dates of the emitted rows are `d, d + δ, d + 2δ, …`: the row records
the pre-advance date and the date then advances by the fixed offset. -/
theorem amortLoop_dates (r base fee extra : ℚ) (δ : ℤ) :
    ∀ (fuel : ℕ) (bal : ℚ) (d : ℤ) (p : ℕ),
      (amortLoop r base fee extra δ fuel bal d p).1.map Row.date =
        (List.range (amortLoop r base fee extra δ fuel bal d p).1.length).map
          (fun k : ℕ => d + (k : ℤ) * δ) := by
  intro fuel
  induction fuel with
  | zero =>
    intro bal d p
    simp [amortLoop]
  | succ fuel ih =>
    intro bal d p
    by_cases hg : 1e-6 < bal
    · rw [amortLoop_succ _ _ _ _ _ _ _ _ _ hg]
      simp only [List.map_cons, List.length_cons]
      rw [ih, List.range_succ_eq_map, List.map_cons, List.map_map]
      congr 1
      · norm_num
      · congr 1
        funext k
        simp only [Function.comp]
        push_cast
        ring
    · rw [amortLoop_nil _ _ _ _ _ _ _ _ _ hg]
      simp

/-- The periodic fee influences neither the loop control nor any field other
than `fee` and `totalInclFee`: the `Row.core` projections and the final
`(bal, period)` state agree for any two fee values. -/
theorem amortLoop_fee_frame (r base extra : ℚ) (δ : ℤ) (fee1 fee2 : ℚ) :
    ∀ (fuel : ℕ) (bal : ℚ) (d : ℤ) (p : ℕ),
      (amortLoop r base fee1 extra δ fuel bal d p).1.map Row.core =
        (amortLoop r base fee2 extra δ fuel bal d p).1.map Row.core ∧
      (amortLoop r base fee1 extra δ fuel bal d p).2 =
        (amortLoop r base fee2 extra δ fuel bal d p).2 := by
  intro fuel
  induction fuel with
  | zero =>
    intro bal d p
    exact ⟨rfl, rfl⟩
  | succ fuel ih =>
    intro bal d p
    by_cases hg : 1e-6 < bal
    · rw [amortLoop_succ _ _ _ _ _ _ _ _ _ hg, amortLoop_succ _ _ _ _ _ _ _ _ _ hg]
      obtain ⟨ih1, ih2⟩ := ih (bal - pcSel r base extra bal) (d + δ) (p + 1)
      constructor
      · simp only [List.map_cons, Row.core]
        rw [ih1]
      · exact ih2
    · rw [amortLoop_nil _ _ _ _ _ _ _ _ _ hg, amortLoop_nil _ _ _ _ _ _ _ _ _ hg]
      exact ⟨rfl, rfl⟩

/-- A `Chain` from any starting point yields a `Chain'` on the list itself. -/
theorem chain_to_chain' {α : Type} {R : α → α → Prop} {a : α} {l : List α}
    (h : List.Chain R a l) : List.Chain' R l := by
  cases l with
  | nil => trivial
  | cons b l => exact (List.chain_cons.mp h).2

/-! ### Entry conditions of the schedule loop -/

theorem ppy_pos (t : LoanTerms) : 0 < ppy t := by
  unfold ppy periods_per_year
  cases t.freq <;> norm_num

theorem rate_nonneg (t : LoanTerms) (h : 0 ≤ t.apr) : 0 ≤ rate t := by
  unfold rate
  have h1 : (0 : ℚ) < (ppy t : ℚ) := by exact_mod_cast ppy_pos t
  positivity

/-- With a per-period rate of at least `1e-9` the `pmt` formula applies and
dominates one period's interest on the full principal. -/
theorem pmt_ge_interest (r : ℚ) (n : ℕ) (P : ℚ) (hr : 1e-9 ≤ r) (hn : n ≠ 0)
    (hP : 0 ≤ P) : P * r ≤ pmt r n P := by
  have hr0 : (0 : ℚ) < r := lt_of_lt_of_le (by norm_num) hr
  have habs : ¬ |r| < 1e-9 := not_lt.mpr (le_trans hr (le_abs_self r))
  have hf : 1 < (1 + r) ^ n := one_lt_pow₀ (by linarith) hn
  rw [pmt, if_neg hn, if_neg habs, le_div_iff (by linarith : (0:ℚ) < (1 + r) ^ n - 1)]
  nlinarith [mul_nonneg hP hr0.le]

/-- Entry potential for the schedule loop in the positive-rate regime: with
fuel `1000 * n` the deficit condition of `amortLoop_final_small_pos` holds at
`bal = P` for `base = pmt r n P`. -/
theorem pot_entry_pos (r : ℚ) (n : ℕ) (P extra : ℚ) (hr : 1e-9 ≤ r) (hn : n ≠ 0)
    (hP : 0 ≤ P) (hextra : 0 ≤ extra) :
    pmt r n P + extra ≤ (pmt r n P + extra - P * r) * (1 + r) ^ (1000 * n) := by
  have hr0 : (0 : ℚ) < r := lt_of_lt_of_le (by norm_num) hr
  have habs : ¬ |r| < 1e-9 := not_lt.mpr (le_trans hr (le_abs_self r))
  have hf : 1 < (1 + r) ^ n := one_lt_pow₀ (by linarith) hn
  have hfne : (1 + r) ^ n - 1 ≠ 0 := by linarith
  have hbase : pmt r n P = P * r * (1 + r) ^ n / ((1 + r) ^ n - 1) := by
    rw [pmt, if_neg hn, if_neg habs]
  have hAf : (pmt r n P - P * r) * (1 + r) ^ n = pmt r n P := by
    rw [hbase]
    field_simp
    ring
  have hA0 : 0 ≤ pmt r n P - P * r := by
    have := pmt_ge_interest r n P hr hn hP
    linarith
  have hpow : (1 + r) ^ n ≤ (1 + r) ^ (1000 * n) :=
    pow_le_pow_right₀ (by linarith) (Nat.le_mul_of_pos_left n (by norm_num))
  have hF1 : (1 : ℚ) ≤ (1 + r) ^ (1000 * n) := le_trans (le_of_lt hf) hpow
  have h1 : (pmt r n P - P * r) * (1 + r) ^ n ≤ (pmt r n P - P * r) * (1 + r) ^ (1000 * n) :=
    mul_le_mul_of_nonneg_left hpow hA0
  have h2 : extra * 1 ≤ extra * (1 + r) ^ (1000 * n) := mul_le_mul_of_nonneg_left hF1 hextra
  have hdist : (pmt r n P + extra - P * r) * (1 + r) ^ (1000 * n) =
      (pmt r n P - P * r) * (1 + r) ^ (1000 * n) + extra * (1 + r) ^ (1000 * n) := by
    ring
  rw [hdist]
  rw [hAf] at h1
  linarith

/-- Entry potential in the exactly-zero-rate regime: `1000 * n` periods of
`P / n + extra` cover the principal. -/
theorem pot_entry_zero (n : ℕ) (P extra : ℚ) (hn : n ≠ 0) (hP : 0 ≤ P)
    (hextra : 0 ≤ extra) :
    P ≤ ((1000 * n : ℕ) : ℚ) * (pmt 0 n P + extra) := by
  have hn0 : (0 : ℚ) < (n : ℚ) := by exact_mod_cast Nat.pos_of_ne_zero hn
  have hbase : pmt 0 n P = P / n := by
    rw [pmt, if_neg hn, if_pos]
    rw [abs_zero]
    norm_num
  rw [hbase]
  push_cast
  have hcancel : (n : ℚ) * (P / n) = P := mul_div_cancel₀ P (ne_of_gt hn0)
  nlinarith [mul_nonneg (mul_nonneg (by norm_num : (0:ℚ) ≤ 1000) (le_of_lt hn0)) hextra]

/-! ### The claims -/

/-- C1: the payment formula returns `0` when `n = 0`, `principal / n` when
`|r| < 1e-9`, and `principal * r * (1+r)^n / ((1+r)^n - 1)` otherwise. -/
theorem pmt_piecewise (r : ℚ) (n : ℕ) (P : ℚ) :
    (n = 0 → pmt r n P = 0) ∧
    (n ≠ 0 → |r| < 1e-9 → pmt r n P = P / n) ∧
    (n ≠ 0 → ¬ |r| < 1e-9 →
      pmt r n P = P * r * (1 + r) ^ n / ((1 + r) ^ n - 1)) := by
  refine ⟨fun h => ?_, fun h1 h2 => ?_, fun h1 h2 => ?_⟩
  · rw [pmt, if_pos h]
  · rw [pmt, if_neg h1, if_pos h2]
  · rw [pmt, if_neg h1, if_neg h2]

/-- Witness for C1: all three branches evaluated at concrete arguments. -/
theorem pmt_piecewise_check :
    pmt (1/10) 0 500 = 0 ∧ pmt 0 4 500 = 125 ∧
    pmt (1/10) 2 1000 = 1000 * (1/10) * (1 + 1/10) ^ 2 / ((1 + 1/10) ^ 2 - 1) := by
  refine ⟨(pmt_piecewise (1/10) 0 500).1 rfl, ?_, ?_⟩
  · have h := (pmt_piecewise 0 4 500).2.1 (by norm_num) (by norm_num)
    rw [h]
    norm_num
  · refine (pmt_piecewise (1/10) 2 1000).2.2 (by norm_num) ?_
    rw [not_lt, abs_of_pos (by norm_num : (0:ℚ) < 1/10)]
    norm_num

/-- C5: when the computed principal component exceeds the outstanding
balance, the generator emits exactly one more row, whose `principalPaid` is
the (rounded) previous balance, whose `totalPaymentExclFee` is recomputed as
interest plus that clamped component, whose `balance` is `0`, and no rows
follow it; the loop state ends at balance `0`. -/
theorem clamp_final_row (r base fee extra : ℚ) (δ : ℤ) (fuel : ℕ) (bal : ℚ)
    (d : ℤ) (p : ℕ) (hbal : 1e-6 < bal) (hclamp : bal < base - bal * r + extra) :
    amortLoop r base fee extra δ (fuel + 1) bal d p =
      ([{ period := p + 1, date := d, basePayment := round2 base,
          extraPayment := round2 extra, totalExclFee := round2 (bal * r + bal),
          fee := round2 fee, totalInclFee := round2 (bal * r + bal + fee),
          interest := round2 (bal * r), principalPaid := round2 bal,
          balance := 0 }], 0, p + 1) := by
  rw [amortLoop_succ _ _ _ _ _ _ _ _ _ hbal]
  have hpc : pcSel r base extra bal = bal := by
    unfold pcSel
    rw [if_pos hclamp]
  have htp : tpSel r base extra bal = bal * r + bal := by
    unfold tpSel
    rw [if_pos hclamp]
  rw [hpc, htp, sub_self]
  rw [amortLoop_nil _ _ _ _ _ _ _ _ _ (by norm_num)]
  simp [round2_zero]

/-- Witness for C5: a concrete mid-schedule state with a large extra payment
forcing the clamp. -/
theorem clamp_final_row_check :
    amortLoop (1/10) 5 0 1000 30 6 10 0 0 =
      ([{ period := 1, date := 0, basePayment := 5, extraPayment := 1000,
          totalExclFee := 11, fee := 0, totalInclFee := 11, interest := 1,
          principalPaid := 10, balance := 0 }], 0, 1) := by
  rw [clamp_final_row (1/10) 5 0 1000 30 5 10 0 0 (by norm_num) (by norm_num)]
  decide

/-- C6: the schedule generator always terminates with at most
`1000 * (years * periodsPerYear)` rows (the fuel of the loop is exactly the
`period < 1000 * n` safety cap, and each iteration emits one row). -/
theorem schedule_length_cap (t : LoanTerms) :
    (amortization_schedule t).1.length ≤ 1000 * (t.years * periods_per_year t.freq) := by
  have h := amortLoop_length_le (rate t) (pmt (rate t) (nper t) t.principal)
    t.monthlyFee t.extraPerPeriod (period_delta t.freq) (1000 * nper t)
    t.principal t.startDate 0
  simpa [amortization_schedule, scheduleRun, nper, ppy] using h

/-- C7: changing only `periodicFee` leaves every row's fee-independent fields
(`Row.core` = period, date, basePayment, extraPayment, totalExclFee,
interest, principalPaid, balance), the row count, the returned basePayment
and the returned period count unchanged. -/
theorem fee_frame (t : LoanTerms) (phi : ℚ) :
    (amortization_schedule { t with monthlyFee := phi }).1.map Row.core =
      (amortization_schedule t).1.map Row.core ∧
    (amortization_schedule { t with monthlyFee := phi }).1.length =
      (amortization_schedule t).1.length ∧
    (amortization_schedule { t with monthlyFee := phi }).2.1 =
      (amortization_schedule t).2.1 ∧
    (amortization_schedule { t with monthlyFee := phi }).2.2 =
      (amortization_schedule t).2.2 := by
  obtain ⟨h1, h2⟩ := amortLoop_fee_frame (rate t) (pmt (rate t) (nper t) t.principal)
    t.extraPerPeriod (period_delta t.freq) phi t.monthlyFee (1000 * nper t)
    t.principal t.startDate 0
  refine ⟨h1, ?_, rfl, ?_⟩
  · have := congrArg List.length h1
    simpa using this
  · show (amortLoop (rate t) (pmt (rate t) (nper t) t.principal) phi
      t.extraPerPeriod (period_delta t.freq) (1000 * nper t) t.principal t.startDate 0).2.2 =
      (amortLoop (rate t) (pmt (rate t) (nper t) t.principal) t.monthlyFee
      t.extraPerPeriod (period_delta t.freq) (1000 * nper t) t.principal t.startDate 0).2.2
    rw [h2]

/-- C8: the first row's date is the start date and each subsequent row's
date is the previous row's plus the fixed day offset of the frequency
(30/91/365 days); the date is recorded before being advanced. -/
theorem date_progression (t : LoanTerms) :
    (amortization_schedule t).1.map Row.date =
      (List.range (amortization_schedule t).1.length).map
        (fun k : ℕ => t.startDate + (k : ℤ) * period_delta t.freq) ∧
    period_delta Freq.Monthly = 30 ∧ period_delta Freq.Quarterly = 91 ∧
    period_delta Freq.Yearly = 365 := by
  refine ⟨?_, rfl, rfl, rfl⟩
  have h := amortLoop_dates (rate t) (pmt (rate t) (nper t) t.principal)
    t.monthlyFee t.extraPerPeriod (period_delta t.freq) (1000 * nper t)
    t.principal t.startDate 0
  simpa [amortization_schedule, scheduleRun] using h

/-- C10: the generator returns the two-decimal rounding of the `pmt` value as
`basePayment`, while the rows are computed from the unrounded value: on a
concrete input the actual rows differ from the rows a rounded base payment
would produce. -/
theorem base_rounded_rows_unrounded :
    (∀ t : LoanTerms,
      (amortization_schedule t).2.1 = round2 (pmt (rate t) (nper t) t.principal)) ∧
    (amortization_schedule ⟨100, 10, 3, .Yearly, 0, 0, 0⟩).1 ≠
      (schedule_from_rounded_base ⟨100, 10, 3, .Yearly, 0, 0, 0⟩).1 := by
  exact ⟨fun t => rfl, by decide⟩

/-- C9 counterexample: at `principal = 1e-6` (which satisfies the claim's
hypothesis `principal ≤ 1e-6`) the returned basePayment is the ROUNDING of
the payment-formula value (`0.00`), not the formula value itself
(`1e-6`). -/
theorem small_principal_formula_cex :
    (⟨1e-6, 0, 1, .Yearly, 0, 0, 0⟩ : LoanTerms).principal ≤ 1e-6 ∧
    (amortization_schedule ⟨1e-6, 0, 1, .Yearly, 0, 0, 0⟩).2.1 ≠
      pmt (rate ⟨1e-6, 0, 1, .Yearly, 0, 0, 0⟩) (nper ⟨1e-6, 0, 1, .Yearly, 0, 0, 0⟩)
        (⟨1e-6, 0, 1, .Yearly, 0, 0, 0⟩ : LoanTerms).principal := by
  decide

/-- C9 amended: for principal at most `1e-6` the schedule is empty, the
returned period count is `0`, and the returned basePayment is the
two-decimal rounding of the payment-formula value (`0` for zero
principal). -/
theorem small_principal_empty (t : LoanTerms) (hP : t.principal ≤ 1e-6) :
    (amortization_schedule t).1 = [] ∧
    (amortization_schedule t).2.2 = 0 ∧
    (amortization_schedule t).2.1 = round2 (pmt (rate t) (nper t) t.principal) ∧
    (t.principal = 0 → (amortization_schedule t).2.1 = 0) := by
  have hnil := amortLoop_nil (rate t) (pmt (rate t) (nper t) t.principal)
    t.monthlyFee t.extraPerPeriod (period_delta t.freq) (1000 * nper t)
    t.principal t.startDate 0 (not_lt.mpr hP)
  refine ⟨?_, ?_, rfl, ?_⟩
  · show (scheduleRun t).1 = []
    unfold scheduleRun
    rw [hnil]
  · show (scheduleRun t).2.2 = 0
    unfold scheduleRun
    rw [hnil]
  · intro h0
    have hpmt : pmt (rate t) (nper t) t.principal = 0 := by
      rw [h0, pmt]
      split_ifs <;> simp
    show round2 (pmt (rate t) (nper t) t.principal) = 0
    rw [hpmt, round2_zero]

/-- Witness for C9 (amended) at zero principal. -/
theorem small_principal_empty_check :
    (amortization_schedule ⟨0, 5, 10, .Monthly, 7, 3, 2⟩).1 = [] ∧
    (amortization_schedule ⟨0, 5, 10, .Monthly, 7, 3, 2⟩).2.2 = 0 ∧
    (amortization_schedule ⟨0, 5, 10, .Monthly, 7, 3, 2⟩).2.1 = 0 := by
  obtain ⟨h1, h2, _, h4⟩ :=
    small_principal_empty ⟨0, 5, 10, .Monthly, 7, 3, 2⟩ (by norm_num)
  exact ⟨h1, h2, h4 rfl⟩

/-- C4 counterexample: an input on which a NON-terminal row (row 1 of 2)
violates exact post-rounding additivity: interest `100.01` plus principal
`476.23` is `576.24`, but the stored total is `576.23`. -/
theorem row_identity_cex :
    (amortization_schedule ⟨100006/100, 10, 2, .Yearly, 0, 0, 73/10500⟩).1.length = 2 ∧
    ((amortization_schedule ⟨100006/100, 10, 2, .Yearly, 0, 0, 73/10500⟩).1.getD 0
        ⟨0, 0, 0, 0, 0, 0, 0, 0, 0, 0⟩).interest +
      ((amortization_schedule ⟨100006/100, 10, 2, .Yearly, 0, 0, 73/10500⟩).1.getD 0
        ⟨0, 0, 0, 0, 0, 0, 0, 0, 0, 0⟩).principalPaid ≠
      ((amortization_schedule ⟨100006/100, 10, 2, .Yearly, 0, 0, 73/10500⟩).1.getD 0
        ⟨0, 0, 0, 0, 0, 0, 0, 0, 0, 0⟩).totalExclFee := by
  decide

/-- C4 amended: on EVERY row (terminal or not) the stored two-decimal values
satisfy `interest + principalPaid = totalPaymentExclFee` up to at most one
cent (`0.01`); exact equality can fail by one cent because the three fields
are rounded independently. -/
theorem row_identity_within_cent (t : LoanTerms) (row : Row)
    (hmem : row ∈ (amortization_schedule t).1) :
    |row.interest + row.principalPaid - row.totalExclFee| ≤ 1 / 100 := by
  refine amortLoop_row_identity (rate t) (pmt (rate t) (nper t) t.principal)
    t.monthlyFee t.extraPerPeriod (period_delta t.freq) (1000 * nper t)
    t.principal t.startDate 0 row ?_
  exact hmem

/-- Witness for C4 (amended) on a concrete one-row schedule. -/
theorem row_identity_within_cent_check :
    |((amortization_schedule ⟨100, 0, 1, .Yearly, 0, 0, 0⟩).1.getD 0
        ⟨0, 0, 0, 0, 0, 0, 0, 0, 0, 0⟩).interest +
      ((amortization_schedule ⟨100, 0, 1, .Yearly, 0, 0, 0⟩).1.getD 0
        ⟨0, 0, 0, 0, 0, 0, 0, 0, 0, 0⟩).principalPaid -
      ((amortization_schedule ⟨100, 0, 1, .Yearly, 0, 0, 0⟩).1.getD 0
        ⟨0, 0, 0, 0, 0, 0, 0, 0, 0, 0⟩).totalExclFee| ≤ 1 / 100 := by
  exact row_identity_within_cent ⟨100, 0, 1, .Yearly, 0, 0, 0⟩ _ (by decide)

/-- C3 counterexample: a positive principal at most `1e-6` (here `1e-7`)
with positive rate and positive period count yields an EMPTY schedule, so
the principal sum `0` misses the principal while the allowed tolerance
`0.01 * rowCount` is `0`. -/
theorem principal_sum_cex :
    0 < rate ⟨1/10000000, 12, 1, .Monthly, 0, 0, 0⟩ ∧
    0 < nper ⟨1/10000000, 12, 1, .Monthly, 0, 0, 0⟩ ∧
    ¬ |(((amortization_schedule ⟨1/10000000, 12, 1, .Monthly, 0, 0, 0⟩).1.map
          Row.principalPaid).sum -
        (⟨1/10000000, 12, 1, .Monthly, 0, 0, 0⟩ : LoanTerms).principal)| ≤
      (((amortization_schedule ⟨1/10000000, 12, 1, .Monthly, 0, 0, 0⟩).1.length : ℚ)) *
        (1 / 100) := by
  have hempty : (amortization_schedule ⟨1/10000000, 12, 1, .Monthly, 0, 0, 0⟩).1 = [] := by
    decide
  refine ⟨by decide, by decide, ?_⟩
  rw [hempty]
  simp

/-- C2 counterexample: a LoanTerms input whose numeric fields are all
non-negative (principal `4e12`, annual rate `5e-8`%, `4e9` yearly periods)
yields a per-period rate `5e-10` that is positive but below the `1e-9`
zero-rate threshold of `pmt`; the base payment is then computed by the
zero-rate branch while interest still accrues, so the balance GROWS: row 2's
stored balance strictly exceeds row 1's. -/
theorem balance_monotone_cex :
    ((amortization_schedule ⟨4000000000000, 1/20000000, 4000000000, .Yearly, 0, 0, 0⟩).1.getD 0
        ⟨0, 0, 0, 0, 0, 0, 0, 0, 0, 0⟩).balance <
      ((amortization_schedule ⟨4000000000000, 1/20000000, 4000000000, .Yearly, 0, 0, 0⟩).1.getD 1
        ⟨0, 0, 0, 0, 0, 0, 0, 0, 0, 0⟩).balance := by
  decide

/-- C2 amended: for non-negative principal, annual rate and extra payment,
and a per-period rate that is either exactly `0` or at least the `1e-9`
threshold (so that the zero-rate fallback of `pmt` is consistent with the
interest accrual), the stored balances are monotonically non-increasing, the
terminal row's stored balance is exactly `0`, and the true pre-rounding
final balance lies in `[0, 1e-6]`. -/
theorem schedule_balance_monotone (t : LoanTerms) (hP : 0 ≤ t.principal)
    (hapr : 0 ≤ t.apr) (hextra : 0 ≤ t.extraPerPeriod)
    (hrate : rate t = 0 ∨ 1e-9 ≤ rate t) :
    List.Chain' (fun a b => b ≤ a) ((amortization_schedule t).1.map Row.balance) ∧
    (∀ row : Row, (amortization_schedule t).1.getLast? = some row → row.balance = 0) ∧
    ((amortization_schedule t).1 ≠ [] →
      0 ≤ (scheduleRun t).2.1 ∧ (scheduleRun t).2.1 ≤ 1e-6) := by
  have hr0 : 0 ≤ rate t := rate_nonneg t hapr
  by_cases hn : nper t = 0
  · have hrun : scheduleRun t = ([], t.principal, 0) := by
      unfold scheduleRun
      rw [hn]
      rfl
    refine ⟨?_, ?_, ?_⟩
    · show List.Chain' _ ((scheduleRun t).1.map Row.balance)
      rw [hrun]
      simp
    · intro row hlast
      rw [show (amortization_schedule t).1 = (scheduleRun t).1 from rfl, hrun] at hlast
      simp at hlast
    · intro hne
      rw [show (amortization_schedule t).1 = (scheduleRun t).1 from rfl, hrun] at hne
      simp at hne
  · -- the base payment dominates one period's interest on the whole principal
    have hbase0 : t.principal * rate t ≤
        pmt (rate t) (nper t) t.principal + t.extraPerPeriod := by
      rcases hrate with hz | hge
      · rw [hz, mul_zero]
        have hnn : (0 : ℚ) ≤ pmt 0 (nper t) t.principal := by
          rw [pmt, if_neg hn, if_pos (by rw [abs_zero]; norm_num)]
          positivity
        linarith
      · have := pmt_ge_interest (rate t) (nper t) t.principal hge hn hP
        linarith
    have hfin : 0 ≤ (scheduleRun t).2.1 ∧ (scheduleRun t).2.1 ≤ 1e-6 := by
      rcases hrate with hz | hge
      · have hrun : scheduleRun t = amortLoop 0 (pmt 0 (nper t) t.principal)
            t.monthlyFee t.extraPerPeriod (period_delta t.freq) (1000 * nper t)
            t.principal t.startDate 0 := by
          unfold scheduleRun
          rw [hz]
        rw [hrun]
        refine amortLoop_final_small_zero _ _ _ _ _ _ _ _ hP ?_
        exact pot_entry_zero (nper t) t.principal t.extraPerPeriod hn hP hextra
      · refine amortLoop_final_small_pos _ _ _ _ _
          (lt_of_lt_of_le (by norm_num) hge) _ _ _ _ hP hbase0 ?_
        exact pot_entry_pos (rate t) (nper t) t.principal t.extraPerPeriod hge hn hP hextra
    refine ⟨?_, ?_, fun _ => hfin⟩
    · exact chain_to_chain'
        (amortLoop_balance_chain _ _ _ _ _ hr0 _ _ _ _ hP hbase0)
    · intro row hlast
      have hbal := amortLoop_getLast (rate t) (pmt (rate t) (nper t) t.principal)
        t.monthlyFee t.extraPerPeriod (period_delta t.freq) (1000 * nper t)
        t.principal t.startDate 0 row hlast
      rw [hbal]
      exact round2_eq_zero_of_small hfin.1 hfin.2

/-- Witness for C2 (amended) on a 9.5%-APR monthly loan. -/
theorem schedule_balance_monotone_check :
    List.Chain' (fun a b => b ≤ a)
      ((amortization_schedule ⟨1200000, 19/2, 15, .Monthly, 0, 0, 0⟩).1.map Row.balance) ∧
    (∀ row : Row,
      (amortization_schedule ⟨1200000, 19/2, 15, .Monthly, 0, 0, 0⟩).1.getLast? = some row →
      row.balance = 0) ∧
    ((amortization_schedule ⟨1200000, 19/2, 15, .Monthly, 0, 0, 0⟩).1 ≠ [] →
      0 ≤ (scheduleRun ⟨1200000, 19/2, 15, .Monthly, 0, 0, 0⟩).2.1 ∧
      (scheduleRun ⟨1200000, 19/2, 15, .Monthly, 0, 0, 0⟩).2.1 ≤ 1e-6) := by
  refine schedule_balance_monotone ⟨1200000, 19/2, 15, .Monthly, 0, 0, 0⟩
    (by norm_num) (by norm_num) (by norm_num) (Or.inr ?_)
  show (1e-9 : ℚ) ≤ (19/2 : ℚ) / 100 / ((12 : ℕ) : ℚ)
  norm_num

/-- C3 amended: with principal above the `1e-6` loop threshold, per-period
rate at least `1e-9`, a positive period count and non-negative extra
payment, the rounded per-row principal figures sum to the input principal
within `0.01` per emitted row. -/
theorem principal_sum_close (t : LoanTerms) (hP : 1e-6 < t.principal)
    (hextra : 0 ≤ t.extraPerPeriod) (hn : nper t ≠ 0) (hr : 1e-9 ≤ rate t) :
    |(((amortization_schedule t).1.map Row.principalPaid).sum - t.principal)| ≤
      (((amortization_schedule t).1.length : ℚ)) * (1 / 100) := by
  have hP0 : 0 ≤ t.principal := le_of_lt (lt_trans (by norm_num) hP)
  have hbase0 : t.principal * rate t ≤
      pmt (rate t) (nper t) t.principal + t.extraPerPeriod := by
    have := pmt_ge_interest (rate t) (nper t) t.principal hr hn hP0
    linarith
  have hfin : 0 ≤ (scheduleRun t).2.1 ∧ (scheduleRun t).2.1 ≤ 1e-6 := by
    refine amortLoop_final_small_pos _ _ _ _ _
      (lt_of_lt_of_le (by norm_num) hr) _ _ _ _ hP0 hbase0 ?_
    exact pot_entry_pos (rate t) (nper t) t.principal t.extraPerPeriod hr hn hP0 hextra
  have hsum := amortLoop_principal_sum (rate t) (pmt (rate t) (nper t) t.principal)
    t.monthlyFee t.extraPerPeriod (period_delta t.freq) (1000 * nper t)
    t.principal t.startDate 0
  have hlen1 : 1 ≤ ((amortization_schedule t).1.length : ℚ) := by
    obtain ⟨k, hk⟩ := Nat.exists_eq_succ_of_ne_zero
      (Nat.mul_ne_zero (by norm_num) hn : 1000 * nper t ≠ 0)
    have : (amortization_schedule t).1 =
        (amortLoop (rate t) (pmt (rate t) (nper t) t.principal) t.monthlyFee
          t.extraPerPeriod (period_delta t.freq) (k + 1) t.principal t.startDate 0).1 := by
      show (scheduleRun t).1 = _
      unfold scheduleRun
      rw [hk]
    rw [this, amortLoop_succ _ _ _ _ _ _ _ _ _ hP]
    simp only [List.length_cons]
    push_cast
    have : (0 : ℚ) ≤ ((amortLoop (rate t) (pmt (rate t) (nper t) t.principal) t.monthlyFee
        t.extraPerPeriod (period_delta t.freq) k
        (t.principal - pcSel (rate t) (pmt (rate t) (nper t) t.principal)
          t.extraPerPeriod t.principal) (t.startDate + period_delta t.freq) 1).1.length : ℚ) := by
      positivity
    linarith
  have hsplit : ((amortization_schedule t).1.map Row.principalPaid).sum - t.principal =
      (((amortization_schedule t).1.map Row.principalPaid).sum -
        (t.principal - (scheduleRun t).2.1)) - (scheduleRun t).2.1 := by
    ring
  rw [hsplit]
  calc |(((amortization_schedule t).1.map Row.principalPaid).sum -
          (t.principal - (scheduleRun t).2.1)) - (scheduleRun t).2.1|
      ≤ |((amortization_schedule t).1.map Row.principalPaid).sum -
          (t.principal - (scheduleRun t).2.1)| + |(scheduleRun t).2.1| := abs_sub _ _
    _ ≤ ((amortization_schedule t).1.length : ℚ) * (1 / 200) + 1e-6 := by
        refine add_le_add hsum ?_
        rw [abs_of_nonneg hfin.1]
        exact hfin.2
    _ ≤ ((amortization_schedule t).1.length : ℚ) * (1 / 100) := by
        have h6 : (1e-6 : ℚ) ≤ 1 / 200 := by norm_num
        nlinarith

/-- Witness for C3 (amended) on a 10%-APR two-year yearly loan. -/
theorem principal_sum_close_check :
    |(((amortization_schedule ⟨1000, 10, 2, .Yearly, 0, 0, 0⟩).1.map Row.principalPaid).sum -
        (⟨1000, 10, 2, .Yearly, 0, 0, 0⟩ : LoanTerms).principal)| ≤
      (((amortization_schedule ⟨1000, 10, 2, .Yearly, 0, 0, 0⟩).1.length : ℚ)) * (1 / 100) := by
  refine principal_sum_close ⟨1000, 10, 2, .Yearly, 0, 0, 0⟩ (by norm_num) (by norm_num)
    (by decide) ?_
  show (1e-9 : ℚ) ≤ (10 : ℚ) / 100 / ((1 : ℕ) : ℚ)
  norm_num
